import Mathlib

/-!
Shallow embedding of the KVM key-value engine of `src/bench_vs.c`
(the benchmark harness around it is out of scope).

Modelling conventions:
* C byte strings (`const char *`) are `List Nat`, one element per byte.
* `uint32_t` / `size_t` arithmetic is `Nat` with explicit `% 2^32`
  (`size_t` never overflows on the values reached here).
* The 2^20-bit Bloom bitmap is modelled by the list of bit positions that
  have been set: `db->bloom[h >> 3] |= 1 << (h & 7)` sets exactly bit `h`
  of the bitmap, and `db->bloom[h >> 3] & (1 << (h & 7))` reads exactly
  bit `h`, so the byte array and the set of set positions are isomorphic.
* The data zone is modelled as an association list from byte offset to the
  entry record written there; the C code only ever reads offsets it has
  itself written (bucket heads and `next` fields), which is what the
  association list captures.  Reading an offset that was never written is
  undefined behaviour in C and yields `none` here; the reachability
  invariant `Inv` proved below shows such reads never occur.
-/

namespace KVS

/-- A C byte string: one `Nat` per byte (values `< 256` at the interface). -/
abbrev Bytes := List Nat

/-- `#define BUCKET_COUNT (8 * 1024)` -/
def BUCKET_COUNT : Nat := 8 * 1024

/-- `#define BLOOM_SIZE (1 << 20)` (bits) -/
def BLOOM_SIZE : Nat := 2 ^ 20

/-- `#define POOL_SIZE (64 * 1024 * 1024)` -/
def POOL_SIZE : Nat := 64 * 1024 * 1024

/-- `#define BLOOM_OFF 0` -/
def BLOOM_OFF : Nat := 0

/-- `#define BUCKET_OFF (BLOOM_SIZE / 8)` -/
def BUCKET_OFF : Nat := BLOOM_SIZE / 8

/-- `#define DATA_OFF (BUCKET_OFF + BUCKET_COUNT * sizeof(uint32_t))` -/
def DATA_OFF : Nat := BUCKET_OFF + BUCKET_COUNT * 4

/-- `strlen`: number of bytes before the first null byte. -/
def cstr (s : Bytes) : Bytes := s.takeWhile (fun b => b % 256 != 0)

def strlen (s : Bytes) : Nat := (cstr s).length

/-- `uint32_t klen = strlen(key)`: `size_t` truncated to `uint32_t`. -/
def klen32 (s : Bytes) : Nat := strlen s % 2 ^ 32

/-- The `klen` bytes of `key` that the C code hashes / copies. -/
def kbytes (s : Bytes) : Bytes := s.take (klen32 s)

/-- `fnv1a`: `h = (h ^ (uint8_t)key[i]) * 16777619u` over `uint32_t`. -/
def fnv1a (key : Bytes) : Nat :=
  key.foldl (fun h b => ((h ^^^ b % 256) * 16777619) % 2 ^ 32) 2166136261

/-- Value of the signed `char` holding byte `b`, converted to `uint32_t`
(`char` is signed on the platforms the source targets, so bytes ≥ 128 are
sign-extended before the conversion). -/
def sext8 (b : Nat) : Nat :=
  if b % 256 < 128 then b % 256 else 2 ^ 32 - 256 + b % 256

/-- `hash2`: `h = ((h << 5) + h) ^ key[i]` over `uint32_t`, `key[i]` signed. -/
def hash2 (key : Bytes) : Nat :=
  key.foldl (fun h b => (((h <<< 5) % 2 ^ 32 + h) % 2 ^ 32) ^^^ sext8 b) 0x5bd1e995

/-- `hash3`: `h = (h * 31) + key[i]` over `uint32_t`, `key[i]` signed. -/
def hash3 (key : Bytes) : Nat :=
  key.foldl (fun h b => (h * 31 + sext8 b) % 2 ^ 32) 0x811c9dc5

/-- The three Bloom bit positions of a key (`h1`, `h2`, `h3` in the source). -/
def bloomPositions (key : Bytes) : List Nat :=
  [fnv1a key % BLOOM_SIZE, hash2 key % BLOOM_SIZE, hash3 key % BLOOM_SIZE]

/-- `bloom_add`: sets the three bits; modelled by recording the positions. -/
def bloom_add (bloom : List Nat) (key : Bytes) : List Nat :=
  bloomPositions key ++ bloom

/-- `bloom_maybe`: true iff all three bits are set. -/
def bloom_maybe (bloom : List Nat) (key : Bytes) : Bool :=
  (bloomPositions key).all (fun p => bloom.contains p)

/-- The on-arena entry record: `uint32_t klen, vlen, next; char data[]`,
with `data` holding the key bytes immediately followed by the value bytes. -/
structure Entry where
  klen : Nat
  vlen : Nat
  next : Nat
  data : Bytes
deriving DecidableEq

/-- The `KVM` handle.  `mem` is split into its three zones: `bloom` and
`buckets` are the two zeroed header zones, `entries` is the data zone
(offset ↦ record written there). -/
structure KVM where
  mem_size : Nat
  bloom : List Nat
  buckets : List Nat
  entries : List (Nat × Entry)
  write_pos : Nat
  count : Nat
deriving DecidableEq

/-- `sizeof(Entry) = 12`; `(12 + klen + vlen + 7) & ~7` — the `& ~7`
clears the three low bits, i.e. subtracts `(… + 7) % 8`. -/
def entry_size (klen vlen : Nat) : Nat :=
  12 + klen + vlen + 7 - (12 + klen + vlen + 7) % 8

/-- The state built by the success path of `kvm_put`. -/
def putState (db : KVM) (key value : Bytes) : KVM :=
  let bucket := fnv1a (kbytes key) % BUCKET_COUNT
  { db with
    bloom := bloom_add db.bloom (kbytes key)
    buckets := db.buckets.set bucket (db.write_pos % 2 ^ 32)
    entries := (db.write_pos,
      ⟨klen32 key, klen32 value, db.buckets.getD bucket 0,
       kbytes key ++ kbytes value⟩) :: db.entries
    write_pos := db.write_pos + entry_size (klen32 key) (klen32 value)
    count := db.count + 1 }

/-- `kvm_put`: returns `-1` (capacity exceeded) or `0` (stored), with the
resulting state. -/
def kvm_put (db : KVM) (key value : Bytes) : Int × KVM :=
  if db.write_pos + entry_size (klen32 key) (klen32 value) > db.mem_size
  then (-1, db)
  else (0, putState db key value)

/-- The value bytes sitting after the key bytes of an entry
(`memcpy(v, e->data + e->klen, e->vlen)`). -/
def valOf (e : Entry) : Bytes := (e.data.drop e.klen).take e.vlen

/-- The key bytes of an entry. -/
def keyOf (e : Entry) : Bytes := e.data.take e.klen

/-- The bucket an entry's key hashes to. -/
def entryBucket (e : Entry) : Nat := fnv1a (keyOf e) % BUCKET_COUNT

/-- The `while (off >= DATA_OFF)` chain walk of `kvm_get`, with fuel (the
C loop is unbounded; under `Inv` a chain is never longer than the entry
list, so the fuel `kvm_get` passes is never exhausted). -/
def chainWalk (entries : List (Nat × Entry)) (kb : Bytes) (klen : Nat) :
    Nat → Nat → Option Bytes
  | 0, _ => none
  | fuel + 1, off =>
    if off < DATA_OFF then none
    else
      match List.lookup off entries with
      | none => none
      | some e =>
        if e.klen = klen ∧ e.data.take klen = kb then some (valOf e)
        else chainWalk entries kb klen fuel e.next

/-- `kvm_get`: Bloom check, then chain walk of the key's bucket.  The
returned state is the (unmodified) handle, threaded explicitly. -/
def kvm_get (db : KVM) (key : Bytes) : Option Bytes × KVM :=
  if !(bloom_maybe db.bloom (kbytes key)) then (none, db)
  else
    (chainWalk db.entries (kbytes key) (klen32 key) (db.entries.length + 1)
      (db.buckets.getD (fnv1a (kbytes key) % BUCKET_COUNT) 0), db)

/-- The freshly opened handle: header zones zeroed, cursor at `DATA_OFF`. -/
def initKVM : KVM where
  mem_size := POOL_SIZE
  bloom := []
  buckets := List.replicate BUCKET_COUNT 0
  entries := []
  write_pos := DATA_OFF
  count := 0

/-- Outcome of `kvm_open`. -/
inductive OpenResult where
  | ok (db : KVM)
  | crash
deriving DecidableEq

/-- `kvm_open` with the outcome of its two allocation attempts made
explicit: `mmap_ok` is whether `mmap` returns a mapping, `malloc_ok`
whether the fallback `malloc` returns non-NULL.  The source checks `mmap`
against `MAP_FAILED` and falls back to `malloc`, but never checks the
`malloc` (or `calloc`) result; when both allocations fail it executes
`memset(NULL, 0, DATA_OFF)` — undefined behaviour, modelled as `.crash`.
There is no error return path in the source. -/
def kvm_open (mmap_ok malloc_ok : Bool) : OpenResult :=
  if mmap_ok then .ok initKVM
  else if malloc_ok then .ok initKVM
  else .crash

/-- An operation on an open handle. -/
inductive Op where
  | put (key value : Bytes)
  | get (key : Bytes)

/-- Run one operation, keeping only the state. -/
def stepOp (db : KVM) : Op → KVM
  | .put k v => (kvm_put db k v).2
  | .get k => (kvm_get db k).2

/-- Run a sequence of operations. -/
def runOps (db : KVM) : List Op → KVM
  | [] => db
  | op :: rest => runOps (stepOp db op) rest

/-- Run a sequence of puts, recording whether every one returned `0`. -/
def runPutsOk (db : KVM) : List (Bytes × Bytes) → Bool × KVM
  | [] => (true, db)
  | (k, v) :: rest =>
    let r := kvm_put db k v
    let rest2 := runPutsOk r.2 rest
    ((r.1 == 0) && rest2.1, rest2.2)

/-- Bytes as they arrive at the C interface: byte values, and a length a
`uint32_t` can hold. -/
def ValidBytes (s : Bytes) : Prop := (∀ b ∈ s, b < 256) ∧ s.length < 2 ^ 32

/-- A byte string with no embedded null, i.e. one that a C string can
denote in full. -/
def NullFree (s : Bytes) : Prop := ∀ b ∈ s, b ≠ 0

instance : DecidablePred ValidBytes := fun s => by
  unfold ValidBytes; infer_instance

instance : DecidablePred NullFree := fun s => by
  unfold NullFree; infer_instance

/-! ### Basic facts about byte strings and sizes -/

lemma strlen_le_length (s : Bytes) : strlen s ≤ s.length := by
  unfold strlen cstr
  induction s with
  | nil => simp
  | cons b t ih =>
    by_cases h : (b % 256 != 0) = true
    · simpa [List.takeWhile_cons, h] using ih
    · simp [List.takeWhile_cons, h]

lemma take_strlen (s : Bytes) : s.take (strlen s) = cstr s := by
  unfold strlen cstr
  induction s with
  | nil => simp
  | cons b t ih =>
    by_cases h : (b % 256 != 0) = true
    · simp [List.takeWhile_cons, h, ih]
    · simp [List.takeWhile_cons, h]

lemma klen32_le_length (s : Bytes) : klen32 s ≤ s.length :=
  le_trans (Nat.mod_le _ _) (strlen_le_length s)

lemma kbytes_length (s : Bytes) : (kbytes s).length = klen32 s := by
  simp [kbytes, List.length_take, Nat.min_eq_left (klen32_le_length s)]

lemma klen32_eq_strlen (s : Bytes) (h : s.length < 2 ^ 32) : klen32 s = strlen s :=
  Nat.mod_eq_of_lt (lt_of_le_of_lt (strlen_le_length s) h)

lemma kbytes_eq_cstr (s : Bytes) (h : s.length < 2 ^ 32) : kbytes s = cstr s := by
  rw [kbytes, klen32_eq_strlen s h, take_strlen]

lemma cstr_of_nullfree (s : Bytes) (hb : ∀ b ∈ s, b < 256) (h0 : NullFree s) :
    cstr s = s := by
  unfold cstr
  induction s with
  | nil => rfl
  | cons b t ih =>
    have h1 : (b % 256 != 0) = true := by
      have hlt := hb b (by simp)
      have hne := h0 b (by simp)
      simp [Nat.mod_eq_of_lt hlt, hne]
    rw [List.takeWhile_cons, if_pos h1]
    simp only [List.cons.injEq, true_and]
    exact ih (fun x hx => hb x (by simp [hx])) (fun x hx => h0 x (by simp [hx]))

lemma kbytes_eq_self (s : Bytes) (hv : ValidBytes s) (h0 : NullFree s) :
    kbytes s = s := by
  rw [kbytes_eq_cstr s hv.2, cstr_of_nullfree s hv.1 h0]

lemma entry_size_ge (klen vlen : Nat) : 12 + klen + vlen ≤ entry_size klen vlen := by
  unfold entry_size; omega

lemma entry_size_pos (klen vlen : Nat) : 0 < entry_size klen vlen :=
  lt_of_lt_of_le (by omega) (entry_size_ge klen vlen)

lemma entry_size_eq (klen vlen : Nat) :
    entry_size klen vlen = 8 * ((12 + klen + vlen + 7) / 8) := by
  unfold entry_size; omega

/-! ### Bloom filter facts -/

lemma bloom_maybe_of_mem {bloom : List Nat} {kb : Bytes}
    (h : ∀ p ∈ bloomPositions kb, p ∈ bloom) : bloom_maybe bloom kb = true := by
  simp only [bloom_maybe, List.all_eq_true]
  intro p hp
  simpa [List.contains] using h p hp

lemma mem_bloom_add_left {bloom : List Nat} {kb : Bytes} {p : Nat}
    (h : p ∈ bloomPositions kb) : p ∈ bloom_add bloom kb :=
  List.mem_append_left _ h

lemma mem_bloom_add_right {bloom : List Nat} {kb2 : Bytes} {p : Nat}
    (h : p ∈ bloom) : p ∈ bloom_add bloom kb2 :=
  List.mem_append_right _ h

/-! ### Association-list and list facts -/

lemma lookup_mem {α β : Type} [BEq α] [LawfulBEq α] {l : List (α × β)} {a : α}
    {b : β} (h : List.lookup a l = some b) : (a, b) ∈ l := by
  induction l with
  | nil => simp [List.lookup] at h
  | cons p t ih =>
    obtain ⟨k, v⟩ := p
    rw [List.lookup_cons] at h
    by_cases he : (a == k) = true
    · simp only [he] at h
      obtain rfl : v = b := by simpa using h
      have ha : a = k := eq_of_beq he
      subst ha
      exact List.mem_cons_self _ _
    · have he2 : (a == k) = false := by simpa using he
      simp only [he2] at h
      exact List.mem_cons_of_mem _ (ih h)

lemma find?_filter_of_imp {α : Type} (l : List α) (p q : α → Bool)
    (h : ∀ x, p x = true → q x = true) :
    List.find? p (l.filter q) = List.find? p l := by
  induction l with
  | nil => rfl
  | cons x t ih =>
    by_cases hq : q x = true
    · rw [List.filter_cons_of_pos hq]
      by_cases hp : p x = true
      · rw [List.find?_cons_of_pos _ hp, List.find?_cons_of_pos _ hp]
      · rw [List.find?_cons_of_neg _ hp, List.find?_cons_of_neg _ hp, ih]
    · have hp : ¬ p x = true := fun hp => hq (h x hp)
      rw [List.filter_cons_of_neg hq, List.find?_cons_of_neg _ hp, ih]

lemma head?_filter {α : Type} (l : List α) (p : α → Bool) :
    (l.filter p).head? = List.find? p l := by
  induction l with
  | nil => rfl
  | cons x t ih =>
    by_cases hp : p x = true
    · rw [List.filter_cons_of_pos hp, List.find?_cons_of_pos _ hp, List.head?_cons]
    · rw [List.filter_cons_of_neg hp, List.find?_cons_of_neg _ hp, ih]

lemma find?_reverse {α : Type} (l : List α) (p : α → Bool) :
    List.find? p l.reverse = (l.filter p).getLast? := by
  rw [List.getLast?_eq_head?_reverse, ← List.filter_reverse, head?_filter]

lemma getD_set_self {l : List Nat} {i : Nat} (h : i < l.length) (a d : Nat) :
    (l.set i a).getD i d = a := by
  rw [List.getD_eq_getElem?_getD, List.getElem?_set_self h]; rfl

lemma getD_set_ne {l : List Nat} {i j : Nat} (h : i ≠ j) (a d : Nat) :
    (l.set i a).getD j d = l.getD j d := by
  rw [List.getD_eq_getElem?_getD, List.getElem?_set_ne h,
    ← List.getD_eq_getElem?_getD]

lemma getD_replicate {n i : Nat} (h : i < n) (a d : Nat) :
    (List.replicate n a).getD i d = a := by
  rw [List.getD_eq_getElem?_getD, List.getElem?_replicate, if_pos h]; rfl

/-! ### The state invariant -/

/-- A record as `kvm_put` writes it: `data` holds exactly the `klen` key
bytes followed by the `vlen` value bytes. -/
def EntryWF (e : Entry) : Prop := e.data.length = e.klen + e.vlen

/-- The chain of records reached from offset `off` by following `next`
fields: any offset below `DATA_OFF` terminates the chain (the loop guard
`off >= DATA_OFF` of `kvm_get`), and every link is a record actually
written at its offset. -/
inductive ChainRel (entries : List (Nat × Entry)) : Nat → List (Nat × Entry) → Prop where
  | nil {off : Nat} : off < DATA_OFF → ChainRel entries off []
  | cons {off : Nat} {e : Entry} {rest : List (Nat × Entry)} :
      DATA_OFF ≤ off → List.lookup off entries = some e →
      ChainRel entries e.next rest → ChainRel entries off ((off, e) :: rest)

/-- A chain is unaffected by writing a record at a fresh offset. -/
lemma ChainRel.extend {entries : List (Nat × Entry)} {off : Nat}
    {c : List (Nat × Entry)} {woff : Nat} {e2 : Entry}
    (h : ChainRel entries off c) (hf : ∀ pe ∈ entries, pe.1 ≠ woff) :
    ChainRel ((woff, e2) :: entries) off c := by
  induction h with
  | nil h0 => exact ChainRel.nil h0
  | @cons o e rest hge hlk hrest ih =>
    refine ChainRel.cons hge ?_ ih
    have hne : (o == woff) = false := by
      simpa using hf _ (lookup_mem hlk)
    rw [List.lookup_cons]
    simp only [hne]
    exact hlk

/-- Well-formedness of a reachable `KVM` state:
the bucket table has its fixed size; the cursor is inside the region and
past the header zones; every record sits between `DATA_OFF` and the
cursor; records carry exactly their key and value bytes; every stored
key's Bloom bits are set; and each bucket's chain consists of exactly the
stored records hashing to that bucket, most recent first. -/
structure Inv (db : KVM) : Prop where
  buckets_len : db.buckets.length = BUCKET_COUNT
  mem_lt : db.mem_size < 2 ^ 32
  wp_le : db.write_pos ≤ db.mem_size
  wp_ge : DATA_OFF ≤ db.write_pos
  offs_range : ∀ pe ∈ db.entries, DATA_OFF ≤ pe.1 ∧ pe.1 < db.write_pos
  entries_wf : ∀ pe ∈ db.entries, EntryWF pe.2
  bloom_complete : ∀ pe ∈ db.entries, ∀ p ∈ bloomPositions (keyOf pe.2), p ∈ db.bloom
  chains : ∀ b < BUCKET_COUNT,
    ChainRel db.entries (db.buckets.getD b 0)
      (db.entries.filter (fun pe => entryBucket pe.2 == b))

/-- The chain walk returns the first record of the chain whose stored key
is `kb`, provided the chain is shorter than the fuel. -/
lemma chainWalk_eq {entries : List (Nat × Entry)} {kb : Bytes} {klen : Nat}
    (hk : kb.length = klen) {off : Nat} {c : List (Nat × Entry)}
    (hc : ChainRel entries off c) :
    ∀ {fuel : Nat}, c.length < fuel → (∀ pe ∈ c, EntryWF pe.2) →
      chainWalk entries kb klen fuel off =
        (c.find? (fun pe => keyOf pe.2 == kb)).map (fun pe => valOf pe.2) := by
  induction hc with
  | nil h0 =>
    intro fuel hfuel _
    cases fuel with
    | zero => simp at hfuel
    | succ n => simp [chainWalk, h0]
  | @cons o e rest hge hlk hrest ih =>
    intro fuel hfuel hwf
    cases fuel with
    | zero => simp at hfuel
    | succ n =>
      have hwfe : EntryWF e := hwf _ (List.mem_cons_self _ _)
      have hkey : keyOf e = e.data.take e.klen := rfl
      simp only [chainWalk]
      rw [if_neg (by omega)]
      simp only [hlk]
      by_cases hm : keyOf e = kb
      · have hkl : e.klen = klen := by
          have h1 : (keyOf e).length = e.klen := by
            rw [hkey, List.length_take]
            have : e.klen ≤ e.data.length := by rw [hwfe]; omega
            omega
          rw [← hk, ← hm, h1]
        rw [if_pos ⟨hkl, by rw [← hkl, ← hkey]; exact hm⟩,
          List.find?_cons_of_pos _ (by simp [hm])]
        rfl
      · rw [if_neg ?cond, List.find?_cons_of_neg _ (by simp [hm])]
        case cond =>
          rintro ⟨h1, h2⟩
          exact hm (by rw [hkey, h1, h2])
        exact ih (by simpa using Nat.lt_of_succ_lt_succ hfuel)
          (fun pe hpe => hwf pe (List.mem_cons_of_mem _ hpe))

/-! ### The invariant holds initially and is preserved -/

lemma initKVM_inv : Inv initKVM := by
  refine ⟨?_, ?_, ?_, ?_, ?_, ?_, ?_, ?_⟩
  · simp [initKVM]
  · norm_num [initKVM, POOL_SIZE]
  · norm_num [initKVM, POOL_SIZE, DATA_OFF, BUCKET_OFF, BLOOM_SIZE, BUCKET_COUNT]
  · exact le_refl _
  · simp [initKVM]
  · simp [initKVM]
  · simp [initKVM]
  · intro b hb
    show ChainRel [] ((List.replicate BUCKET_COUNT 0).getD b 0) _
    rw [getD_replicate hb]
    exact ChainRel.nil (by norm_num [DATA_OFF, BUCKET_OFF, BLOOM_SIZE, BUCKET_COUNT])

lemma putState_inv {db : KVM} {key value : Bytes} (hInv : Inv db)
    (hcap : db.write_pos + entry_size (klen32 key) (klen32 value) ≤ db.mem_size) :
    Inv (putState db key value) := by
  have hBC : 0 < BUCKET_COUNT := by norm_num [BUCKET_COUNT]
  set wp := db.write_pos with hwp
  set kb := kbytes key with hkb
  set vb := kbytes value with hvb
  set β := fnv1a kb % BUCKET_COUNT with hβdef
  have hβ : β < BUCKET_COUNT := Nat.mod_lt _ hBC
  have hmod : wp % 2 ^ 32 = wp :=
    Nat.mod_eq_of_lt (lt_of_le_of_lt hInv.wp_le hInv.mem_lt)
  have hfresh : ∀ pe ∈ db.entries, pe.1 ≠ wp :=
    fun pe hpe => Nat.ne_of_lt (hInv.offs_range pe hpe).2
  have hesz : 0 < entry_size (klen32 key) (klen32 value) := entry_size_pos _ _
  have hkbl : kb.length = klen32 key := kbytes_length key
  have hvbl : vb.length = klen32 value := kbytes_length value
  set e : Entry := ⟨klen32 key, klen32 value, db.buckets.getD β 0, kb ++ vb⟩ with he
  have hkeyOf : keyOf e = kb := by
    rw [he]
    show (kb ++ vb).take (klen32 key) = kb
    rw [← hkbl, List.take_left]
  have hwfe : EntryWF e := by
    rw [he]
    show (kb ++ vb).length = klen32 key + klen32 value
    rw [List.length_append, hkbl, hvbl]
  have hps : putState db key value = { db with
      bloom := bloom_add db.bloom kb
      buckets := db.buckets.set β (wp % 2 ^ 32)
      entries := (wp, e) :: db.entries
      write_pos := wp + entry_size (klen32 key) (klen32 value)
      count := db.count + 1 } := rfl
  rw [hps]
  refine ⟨?_, ?_, ?_, ?_, ?_, ?_, ?_, ?_⟩
  · simpa using hInv.buckets_len
  · exact hInv.mem_lt
  · exact hcap
  · exact le_trans hInv.wp_ge (Nat.le_add_right _ _)
  · intro pe hpe
    rcases List.mem_cons.mp hpe with rfl | hpe
    · exact ⟨hInv.wp_ge, Nat.lt_add_of_pos_right hesz⟩
    · exact ⟨(hInv.offs_range pe hpe).1,
        lt_trans (hInv.offs_range pe hpe).2 (Nat.lt_add_of_pos_right hesz)⟩
  · intro pe hpe
    rcases List.mem_cons.mp hpe with rfl | hpe
    · exact hwfe
    · exact hInv.entries_wf pe hpe
  · intro pe hpe
    rcases List.mem_cons.mp hpe with rfl | hpe
    · intro p hp
      rw [hkeyOf] at hp
      exact mem_bloom_add_left hp
    · intro p hp
      exact mem_bloom_add_right (hInv.bloom_complete pe hpe p hp)
  · intro b hb
    show ChainRel ((wp, e) :: db.entries)
      ((db.buckets.set β (wp % 2 ^ 32)).getD b 0)
      (List.filter (fun pe => entryBucket pe.2 == b) ((wp, e) :: db.entries))
    by_cases hbβ : b = β
    · rw [hbβ, getD_set_self (by rw [hInv.buckets_len]; exact hβ) _ _, hmod,
        @List.filter_cons_of_pos _ (fun pe => entryBucket pe.2 == β) (wp, e)
          db.entries (by simp [entryBucket, hkeyOf, hβdef])]
      refine ChainRel.cons hInv.wp_ge (by simp [List.lookup_cons]) ?_
      exact ChainRel.extend (hInv.chains β hβ) hfresh
    · rw [getD_set_ne (fun h => hbβ h.symm) _ _]
      have hpred : ¬ (entryBucket (wp, e).2 == b) = true := by
        simp only [entryBucket, hkeyOf, beq_iff_eq]
        exact fun h => hbβ (by rw [hβdef, ← h])
      rw [@List.filter_cons_of_neg _ (fun pe => entryBucket pe.2 == b) (wp, e)
        db.entries hpred]
      exact ChainRel.extend (hInv.chains b hb) hfresh

lemma kvm_put_inv {db : KVM} (key value : Bytes) (hInv : Inv db) :
    Inv (kvm_put db key value).2 := by
  unfold kvm_put
  split
  · exact hInv
  · next h => exact putState_inv hInv (by omega)

lemma kvm_put_of_le {db : KVM} {key value : Bytes}
    (h : db.write_pos + entry_size (klen32 key) (klen32 value) ≤ db.mem_size) :
    kvm_put db key value = (0, putState db key value) := by
  unfold kvm_put
  rw [if_neg (by omega)]

lemma kvm_put_of_gt {db : KVM} {key value : Bytes}
    (h : db.mem_size < db.write_pos + entry_size (klen32 key) (klen32 value)) :
    kvm_put db key value = (-1, db) := by
  unfold kvm_put
  rw [if_pos (by omega)]

lemma kvm_put_succ_eq {db : KVM} {key value : Bytes}
    (h : (kvm_put db key value).1 = 0) :
    kvm_put db key value = (0, putState db key value) := by
  by_cases hc : db.write_pos + entry_size (klen32 key) (klen32 value) > db.mem_size
  · exfalso
    unfold kvm_put at h
    rw [if_pos hc] at h
    simp at h
  · unfold kvm_put
    rw [if_neg hc]

lemma kvm_get_snd (db : KVM) (key : Bytes) : (kvm_get db key).2 = db := by
  unfold kvm_get
  split <;> rfl

/-- What `kvm_get` observes, for any well-formed state: the value of the
most recently written record whose key is the (truncated) query key. -/
lemma kvm_get_spec {db : KVM} (key : Bytes) (hInv : Inv db) :
    (kvm_get db key).1 =
      (db.entries.find? (fun pe => keyOf pe.2 == kbytes key)).map
        (fun pe => valOf pe.2) := by
  set kb := kbytes key with hkbdef
  by_cases hb : bloom_maybe db.bloom kb = true
  · have hBC : 0 < BUCKET_COUNT := by norm_num [BUCKET_COUNT]
    have hβ : fnv1a kb % BUCKET_COUNT < BUCKET_COUNT := Nat.mod_lt _ hBC
    have hchain := hInv.chains _ hβ
    have hlen : (db.entries.filter
        (fun pe => entryBucket pe.2 == fnv1a kb % BUCKET_COUNT)).length <
        db.entries.length + 1 :=
      Nat.lt_succ_of_le (List.length_filter_le _ _)
    have hwf : ∀ pe ∈ db.entries.filter
        (fun pe => entryBucket pe.2 == fnv1a kb % BUCKET_COUNT), EntryWF pe.2 :=
      fun pe hpe => hInv.entries_wf pe (List.mem_of_mem_filter hpe)
    have hwalk := chainWalk_eq (kbytes_length key) hchain hlen hwf
    show (if !(bloom_maybe db.bloom kb) then (none, db) else
      (chainWalk db.entries kb (klen32 key) (db.entries.length + 1)
        (db.buckets.getD (fnv1a kb % BUCKET_COUNT) 0), db)).1 = _
    rw [if_neg (by simp [hb])]
    show chainWalk db.entries kb (klen32 key) (db.entries.length + 1)
        (db.buckets.getD (fnv1a kb % BUCKET_COUNT) 0) = _
    rw [hwalk, find?_filter_of_imp]
    intro x hx
    have hxk : keyOf x.2 = kb := by simpa using hx
    simp [entryBucket, hxk]
  · have hnone : db.entries.find? (fun pe => keyOf pe.2 == kb) = none := by
      rw [List.find?_eq_none]
      intro pe hpe hkey
      have hkeq : keyOf pe.2 = kb := by simpa using hkey
      apply hb
      apply bloom_maybe_of_mem
      intro p hp
      exact hInv.bloom_complete pe hpe p (by rwa [← hkeq] at hp)
    show (if !(bloom_maybe db.bloom kb) then (none, db) else
      (chainWalk db.entries kb (klen32 key) (db.entries.length + 1)
        (db.buckets.getD (fnv1a kb % BUCKET_COUNT) 0), db)).1 = _
    rw [if_pos (by simp [hb]), hnone]
    rfl

/-! ### Components of the success state of `kvm_put` -/

lemma putState_write_pos (db : KVM) (k v : Bytes) :
    (putState db k v).write_pos =
      db.write_pos + entry_size (klen32 k) (klen32 v) := rfl

lemma putState_mem_size (db : KVM) (k v : Bytes) :
    (putState db k v).mem_size = db.mem_size := rfl

lemma putState_bloom (db : KVM) (k v : Bytes) :
    (putState db k v).bloom = bloom_add db.bloom (kbytes k) := rfl

lemma putState_entries (db : KVM) (k v : Bytes) :
    (putState db k v).entries = (db.write_pos,
      ⟨klen32 k, klen32 v,
       db.buckets.getD (fnv1a (kbytes k) % BUCKET_COUNT) 0,
       kbytes k ++ kbytes v⟩) :: db.entries := rfl

lemma keyOf_newEntry (k v : Bytes) (klen vlen nxt : Nat)
    (hkl : klen = klen32 k) :
    keyOf ⟨klen, vlen, nxt, kbytes k ++ kbytes v⟩ = kbytes k := by
  show (kbytes k ++ kbytes v).take klen = kbytes k
  rw [hkl, ← kbytes_length k, List.take_left]

lemma valOf_newEntry (k v : Bytes) (klen vlen nxt : Nat)
    (hkl : klen = klen32 k) (hvl : vlen = klen32 v) :
    valOf ⟨klen, vlen, nxt, kbytes k ++ kbytes v⟩ = kbytes v := by
  show ((kbytes k ++ kbytes v).drop klen).take vlen = kbytes v
  rw [hkl, ← kbytes_length k, List.drop_left, hvl, ← kbytes_length v,
    List.take_length]

/-! ### Facts preserved along operation sequences -/

lemma stepOp_inv {db : KVM} (op : Op) (hInv : Inv db) : Inv (stepOp db op) := by
  cases op with
  | put k v => exact kvm_put_inv k v hInv
  | get k =>
    show Inv (kvm_get db k).2
    rw [kvm_get_snd]
    exact hInv

lemma runOps_inv (ops : List Op) {db : KVM} (hInv : Inv db) :
    Inv (runOps db ops) := by
  induction ops generalizing db with
  | nil => exact hInv
  | cons op rest ih => exact ih (stepOp_inv op hInv)

lemma stepOp_wp_mono (db : KVM) (op : Op) :
    db.write_pos ≤ (stepOp db op).write_pos := by
  cases op with
  | put k v =>
    show db.write_pos ≤ (kvm_put db k v).2.write_pos
    unfold kvm_put
    split
    · exact le_refl _
    · show db.write_pos ≤ (putState db k v).write_pos
      rw [putState_write_pos]
      exact Nat.le_add_right _ _
  | get k =>
    show db.write_pos ≤ (kvm_get db k).2.write_pos
    rw [kvm_get_snd]

lemma stepOp_mem_size (db : KVM) (op : Op) :
    (stepOp db op).mem_size = db.mem_size := by
  cases op with
  | put k v =>
    show (kvm_put db k v).2.mem_size = db.mem_size
    unfold kvm_put
    split
    · rfl
    · exact putState_mem_size db k v
  | get k =>
    show (kvm_get db k).2.mem_size = db.mem_size
    rw [kvm_get_snd]

lemma stepOp_wp_le (db : KVM) (op : Op) (h : db.write_pos ≤ db.mem_size) :
    (stepOp db op).write_pos ≤ (stepOp db op).mem_size := by
  cases op with
  | put k v =>
    show (kvm_put db k v).2.write_pos ≤ (kvm_put db k v).2.mem_size
    unfold kvm_put
    split
    · exact h
    · next hc =>
      rw [putState_write_pos, putState_mem_size]
      omega
  | get k =>
    show (kvm_get db k).2.write_pos ≤ (kvm_get db k).2.mem_size
    rw [kvm_get_snd]
    exact h

lemma runOps_wp_mono (ops : List Op) (db : KVM) :
    db.write_pos ≤ (runOps db ops).write_pos := by
  induction ops generalizing db with
  | nil => exact le_refl _
  | cons op rest ih => exact le_trans (stepOp_wp_mono db op) (ih _)

lemma runOps_mem_size (ops : List Op) (db : KVM) :
    (runOps db ops).mem_size = db.mem_size := by
  induction ops generalizing db with
  | nil => rfl
  | cons op rest ih => rw [runOps, ih, stepOp_mem_size]

lemma runOps_wp_le (ops : List Op) (db : KVM) (h : db.write_pos ≤ db.mem_size) :
    (runOps db ops).write_pos ≤ (runOps db ops).mem_size := by
  induction ops generalizing db with
  | nil => exact h
  | cons op rest ih => exact ih _ (stepOp_wp_le db op h)

lemma stepOp_bloom_mono (db : KVM) (op : Op) {p : Nat} (h : p ∈ db.bloom) :
    p ∈ (stepOp db op).bloom := by
  cases op with
  | put k v =>
    show p ∈ (kvm_put db k v).2.bloom
    unfold kvm_put
    split
    · exact h
    · rw [putState_bloom]
      exact mem_bloom_add_right h
  | get k =>
    show p ∈ (kvm_get db k).2.bloom
    rw [kvm_get_snd]
    exact h

lemma runOps_bloom_mono (ops : List Op) (db : KVM) {p : Nat}
    (h : p ∈ db.bloom) : p ∈ (runOps db ops).bloom := by
  induction ops generalizing db with
  | nil => exact h
  | cons op rest ih => exact ih _ (stepOp_bloom_mono db op h)

/-- Every record key present after a run was either present before or is
the (truncated) key of some put in the run. -/
lemma runOps_entry_keys (ops : List Op) (db : KVM) (pe : Nat × Entry)
    (hpe : pe ∈ (runOps db ops).entries) :
    pe ∈ db.entries ∨
      ∃ op ∈ ops, ∃ k v, op = Op.put k v ∧ keyOf pe.2 = kbytes k := by
  induction ops generalizing db with
  | nil => exact Or.inl hpe
  | cons op rest ih =>
    rcases ih (stepOp db op) hpe with h | h
    · cases op with
      | put k v =>
        have h2 : pe ∈ (kvm_put db k v).2.entries := h
        unfold kvm_put at h2
        split at h2
        · exact Or.inl h2
        · rw [putState_entries] at h2
          rcases List.mem_cons.mp h2 with rfl | h3
          · exact Or.inr ⟨Op.put k v, List.mem_cons_self _ _, k, v, rfl,
              keyOf_newEntry k v _ _ _ rfl⟩
          · exact Or.inl h3
      | get k =>
        have h2 : pe ∈ (kvm_get db k).2.entries := h
        rw [kvm_get_snd] at h2
        exact Or.inl h2
    · obtain ⟨op2, hop2, k, v, hput, hkey⟩ := h
      exact Or.inr ⟨op2, List.mem_cons_of_mem _ hop2, k, v, hput, hkey⟩

/-! ### Runs of successful puts -/

/-- The key/value bytes a stored record carries. -/
def entryKV (pe : Nat × Entry) : Bytes × Bytes := (keyOf pe.2, valOf pe.2)

lemma runPutsOk_spec (ops : List (Bytes × Bytes)) (db : KVM) (hInv : Inv db)
    (hok : (runPutsOk db ops).1 = true) :
    Inv (runPutsOk db ops).2 ∧
    (runPutsOk db ops).2.entries.map entryKV =
      (ops.map (fun p => (kbytes p.1, kbytes p.2))).reverse ++
        db.entries.map entryKV := by
  induction ops generalizing db with
  | nil => exact ⟨hInv, by simp [runPutsOk]⟩
  | cons p rest ih =>
    obtain ⟨k, v⟩ := p
    simp only [runPutsOk, Bool.and_eq_true] at hok
    obtain ⟨h0, hrest⟩ := hok
    have h0 : (kvm_put db k v).1 = 0 := by simpa using h0
    have hput := kvm_put_succ_eq h0
    rw [hput] at hrest
    have hInv2 : Inv (putState db k v) := by
      have h := kvm_put_inv k v hInv
      rwa [hput] at h
    obtain ⟨hI, hE⟩ := ih (putState db k v) hInv2 hrest
    simp only [runPutsOk, hput]
    refine ⟨hI, ?_⟩
    rw [hE, putState_entries]
    simp [entryKV, keyOf_newEntry k v _ _ _ rfl,
      valOf_newEntry k v _ _ _ rfl rfl, List.append_assoc]

/-- A successful put followed immediately by a get of the same key returns
the stored (truncated) value bytes. -/
lemma put_then_get (db : KVM) (k v : Bytes) (hInv : Inv db)
    (hcap : db.write_pos + entry_size (klen32 k) (klen32 v) ≤ db.mem_size) :
    (kvm_put db k v).1 = 0 ∧
    (kvm_get (kvm_put db k v).2 k).1 = some (kbytes v) := by
  have hput := kvm_put_of_le hcap
  have hInv2 : Inv (putState db k v) := putState_inv hInv hcap
  constructor
  · rw [hput]
  · have hstate : (kvm_put db k v).2 = putState db k v := by rw [hput]
    rw [hstate, kvm_get_spec k hInv2, putState_entries,
      List.find?_cons_of_pos _ (by simp [keyOf_newEntry k v _ _ _ rfl])]
    simp [valOf_newEntry k v _ _ _ rfl rfl]

set_option maxRecDepth 1000000

/-! ### The claims -/

/-- Claim C1: for every open handle `h` (any well-formed state) with
sufficient remaining capacity, and for all keys `k` and values `v` (byte
strings as a C `char *` can denote them: null-free), a successful
`put(h,k,v)` followed immediately by `get(h,k)` returns `v`. -/
theorem C1_put_get_roundtrip (db : KVM) (k v : Bytes) (hInv : Inv db)
    (hk : ValidBytes k) (hk0 : NullFree k) (hv : ValidBytes v)
    (hv0 : NullFree v)
    (hcap : db.write_pos + entry_size k.length v.length ≤ db.mem_size) :
    (kvm_put db k v).1 = 0 ∧
    (kvm_get (kvm_put db k v).2 k).1 = some v := by
  have hkk : kbytes k = k := kbytes_eq_self k hk hk0
  have hvv : kbytes v = v := kbytes_eq_self v hv hv0
  have hkl : klen32 k = k.length := by rw [← kbytes_length k, hkk]
  have hvl : klen32 v = v.length := by rw [← kbytes_length v, hvv]
  have h := put_then_get db k v hInv (by rw [hkl, hvl]; exact hcap)
  rwa [hvv] at h

theorem C1_put_get_roundtrip_witness :
    (initKVM.write_pos + entry_size (List.length [97]) (List.length [49]) ≤
      initKVM.mem_size) ∧
    ((kvm_put initKVM [97] [49]).1 = 0 ∧
      (kvm_get (kvm_put initKVM [97] [49]).2 [97]).1 = some [49]) :=
  ⟨by decide, C1_put_get_roundtrip initKVM [97] [49] initKVM_inv (by decide)
    (by decide) (by decide) (by decide) (by decide)⟩

/-- Claim C2: whenever a put needs more bytes than remain in the region
(`write_pos + entry_size > mem_size`), it returns `-1` (the
capacity-exceeded result) and the entire state — cursor, count, bucket
table, Bloom bitmap and data zone — is exactly as before the call. -/
theorem C2_capacity_exceeded_unchanged (db : KVM) (k v : Bytes)
    (h : db.mem_size < db.write_pos + entry_size (klen32 k) (klen32 v)) :
    (kvm_put db k v).1 = -1 ∧ (kvm_put db k v).2 = db := by
  rw [kvm_put_of_gt h]
  exact ⟨rfl, rfl⟩

theorem C2_capacity_exceeded_unchanged_witness :
    (({ initKVM with mem_size := 0 } : KVM).mem_size <
      ({ initKVM with mem_size := 0 } : KVM).write_pos +
        entry_size (klen32 [97]) (klen32 [49])) ∧
    ((kvm_put { initKVM with mem_size := 0 } [97] [49]).1 = -1 ∧
      (kvm_put { initKVM with mem_size := 0 } [97] [49]).2 =
        { initKVM with mem_size := 0 }) :=
  ⟨by decide, C2_capacity_exceeded_unchanged { initKVM with mem_size := 0 }
    [97] [49] (by decide)⟩

/-- Claim C7: a successful put advances the write cursor by exactly the
fixed 12-byte entry header plus `klen` plus `vlen`, rounded up to a
multiple of 8, and writes the new entry at the cursor's pre-advance
offset (`klen`/`vlen` being the C string lengths of key and value). -/
theorem C7_put_advances_cursor (db : KVM) (k v : Bytes)
    (hk : ValidBytes k) (hv : ValidBytes v)
    (hsucc : (kvm_put db k v).1 = 0) :
    (kvm_put db k v).2.write_pos =
      db.write_pos + 8 * ((12 + strlen k + strlen v + 7) / 8) ∧
    (kvm_put db k v).2.entries = (db.write_pos,
      ⟨strlen k, strlen v,
       db.buckets.getD (fnv1a (cstr k) % BUCKET_COUNT) 0,
       cstr k ++ cstr v⟩) :: db.entries := by
  have hput := kvm_put_succ_eq hsucc
  have hkl : klen32 k = strlen k := klen32_eq_strlen k hk.2
  have hvl : klen32 v = strlen v := klen32_eq_strlen v hv.2
  have hkb : kbytes k = cstr k := kbytes_eq_cstr k hk.2
  have hvb : kbytes v = cstr v := kbytes_eq_cstr v hv.2
  constructor
  · rw [hput]
    show (putState db k v).write_pos = _
    rw [putState_write_pos, entry_size_eq, hkl, hvl]
  · rw [hput]
    show (putState db k v).entries = _
    rw [putState_entries, hkl, hvl, hkb, hvb]

theorem C7_put_advances_cursor_witness :
    (kvm_put initKVM [97] [49, 50]).1 = 0 ∧
    (kvm_put initKVM [97] [49, 50]).2.write_pos =
      initKVM.write_pos + 8 * ((12 + strlen [97] + strlen [49, 50] + 7) / 8) :=
  ⟨by decide,
   (C7_put_advances_cursor initKVM [97] [49, 50] (by decide) (by decide)
     (by decide)).1⟩

/-- Claim C8 (code bug): the specification requires `open` to fail with
`AllocationError` when the backing memory cannot be obtained, but
`kvm_open` has no error return path at all: it never checks the `calloc`
or fallback `malloc` results, and when both `mmap` and `malloc` fail it
reaches `memset(NULL, 0, DATA_OFF)` — undefined behaviour (a crash) —
instead of reporting an allocation failure. -/
theorem C8_open_oom_crashes : kvm_open false false = OpenResult.crash := rfl

/-- Claim C9 counterexample: keys and values are NOT stored as full byte
sequences.  With key bytes 97,0,98 and value bytes 49,0,50 — both with an
embedded null — the engine truncates both at the first null byte: the
immediately following get returns the single byte 49, not the full
three-byte value. -/
theorem C9_embedded_null_counterexample :
    (kvm_put initKVM [97, 0, 98] [49, 0, 50]).1 = 0 ∧
    (kvm_get (kvm_put initKVM [97, 0, 98] [49, 0, 50]).2 [97, 0, 98]).1 =
      some [49] ∧
    some [49] ≠ some ([49, 0, 50] : Bytes) :=
  ⟨by decide, by decide, by decide⟩

/-- Claim C9 as amended: keys and values are read as null-terminated C
strings (`strlen`), so `put` stores only the bytes before the first null
byte of key and value, and a subsequent `get` of the same key returns
exactly that stored prefix of the value — byte sequences with embedded
nulls are truncated, not stored in full. -/
theorem C9_null_truncation (db : KVM) (k v : Bytes) (hInv : Inv db)
    (hk : ValidBytes k) (hv : ValidBytes v)
    (hcap : db.write_pos + entry_size (strlen k) (strlen v) ≤ db.mem_size) :
    (kvm_put db k v).1 = 0 ∧
    (kvm_get (kvm_put db k v).2 k).1 = some (cstr v) := by
  have hkl : klen32 k = strlen k := klen32_eq_strlen k hk.2
  have hvl : klen32 v = strlen v := klen32_eq_strlen v hv.2
  have h := put_then_get db k v hInv (by rw [hkl, hvl]; exact hcap)
  rwa [kbytes_eq_cstr v hv.2] at h

theorem C9_null_truncation_witness :
    (initKVM.write_pos + entry_size (strlen [97, 0, 98]) (strlen [49, 0, 50]) ≤
      initKVM.mem_size) ∧
    ((kvm_put initKVM [97, 0, 98] [49, 0, 50]).1 = 0 ∧
      (kvm_get (kvm_put initKVM [97, 0, 98] [49, 0, 50]).2 [97, 0, 98]).1 =
        some (cstr [49, 0, 50])) :=
  ⟨by decide, C9_null_truncation initKVM [97, 0, 98] [49, 0, 50] initKVM_inv
    (by decide) (by decide) (by decide)⟩

/-- Claim C10: `kvm_get` is read-only — for every handle state and key it
leaves the entire engine state (Bloom bitmap, bucket table, data zone,
write cursor, entry count) unchanged, found or not. -/
theorem C10_get_readonly (db : KVM) (k : Bytes) :
    (kvm_get db k).2 = db ∧
    (kvm_get db k).2.bloom = db.bloom ∧
    (kvm_get db k).2.buckets = db.buckets ∧
    (kvm_get db k).2.entries = db.entries ∧
    (kvm_get db k).2.write_pos = db.write_pos ∧
    (kvm_get db k).2.count = db.count := by
  have h := kvm_get_snd db k
  exact ⟨h, by rw [h], by rw [h], by rw [h], by rw [h], by rw [h]⟩

/-- Claim C4: the Bloom filter never produces a false negative — after a
successful put of key `k`, followed by any further operations,
`bloom_maybe` is true for `k`; consequently `kvm_get` on `k` does not
take the early-return branch but performs the chain walk. -/
theorem C4_bloom_no_false_negative (db : KVM) (k v : Bytes) (ops : List Op)
    (hsucc : (kvm_put db k v).1 = 0) :
    bloom_maybe (runOps (kvm_put db k v).2 ops).bloom (kbytes k) = true ∧
    (kvm_get (runOps (kvm_put db k v).2 ops) k).1 =
      chainWalk (runOps (kvm_put db k v).2 ops).entries (kbytes k) (klen32 k)
        ((runOps (kvm_put db k v).2 ops).entries.length + 1)
        ((runOps (kvm_put db k v).2 ops).buckets.getD
          (fnv1a (kbytes k) % BUCKET_COUNT) 0) := by
  have hput := kvm_put_succ_eq hsucc
  have hmem : ∀ p ∈ bloomPositions (kbytes k), p ∈ (kvm_put db k v).2.bloom := by
    rw [hput]
    show ∀ p ∈ _, p ∈ (putState db k v).bloom
    rw [putState_bloom]
    exact fun p hp => mem_bloom_add_left hp
  have hbm : bloom_maybe (runOps (kvm_put db k v).2 ops).bloom (kbytes k) = true :=
    bloom_maybe_of_mem (fun p hp => runOps_bloom_mono ops _ (hmem p hp))
  refine ⟨hbm, ?_⟩
  show (if !(bloom_maybe (runOps (kvm_put db k v).2 ops).bloom (kbytes k))
    then (none, runOps (kvm_put db k v).2 ops)
    else (chainWalk _ _ _ _ _, runOps (kvm_put db k v).2 ops)).1 = _
  rw [if_neg (by simp [hbm])]

theorem C4_bloom_no_false_negative_witness :
    (kvm_put initKVM [97] [49]).1 = 0 ∧
    (bloom_maybe (runOps (kvm_put initKVM [97] [49]).2 []).bloom (kbytes [97]) =
        true ∧
      (kvm_get (runOps (kvm_put initKVM [97] [49]).2 []) [97]).1 =
        chainWalk (runOps (kvm_put initKVM [97] [49]).2 []).entries
          (kbytes [97]) (klen32 [97])
          ((runOps (kvm_put initKVM [97] [49]).2 []).entries.length + 1)
          ((runOps (kvm_put initKVM [97] [49]).2 []).buckets.getD
            (fnv1a (kbytes [97]) % BUCKET_COUNT) 0)) :=
  ⟨by decide, C4_bloom_no_false_negative initKVM [97] [49] [] (by decide)⟩

/-- Claim C5: for every key `k` never passed to put in the whole history
of operations on a freshly opened handle, `kvm_get` returns absent
(`none`) — whether or not the Bloom filter reports a false positive, the
chain walk finds no matching entry. -/
theorem C5_never_inserted_absent (ops : List Op) (k : Bytes)
    (hops : ∀ op ∈ ops, ∀ k2 v2, op = Op.put k2 v2 → ValidBytes k2)
    (hk : ValidBytes k)
    (hnot : ∀ op ∈ ops, ∀ k2 v2, op = Op.put k2 v2 → cstr k2 ≠ cstr k) :
    (kvm_get (runOps initKVM ops) k).1 = none := by
  have hI : Inv (runOps initKVM ops) := runOps_inv ops initKVM_inv
  rw [kvm_get_spec k hI]
  have hfind : (runOps initKVM ops).entries.find?
      (fun pe => keyOf pe.2 == kbytes k) = none := by
    rw [List.find?_eq_none]
    intro pe hpe hkey
    have hkeq : keyOf pe.2 = kbytes k := by simpa using hkey
    rcases runOps_entry_keys ops initKVM pe hpe with h | h
    · simp [initKVM] at h
    · obtain ⟨op, hop, k2, v2, hopdef, hk2⟩ := h
      have hv2 := hops op hop k2 v2 hopdef
      apply hnot op hop k2 v2 hopdef
      rw [← kbytes_eq_cstr k2 hv2.2, ← kbytes_eq_cstr k hk.2, ← hk2, hkeq]
  rw [hfind]
  rfl

theorem C5_never_inserted_absent_witness :
    (kvm_get (runOps initKVM [Op.put [97] [49]]) [98]).1 = none :=
  C5_never_inserted_absent [Op.put [97] [49]] [98]
    (by
      intro op hop k2 v2 heq
      rw [List.mem_singleton] at hop
      subst hop
      cases heq
      decide)
    (by decide)
    (by
      intro op hop k2 v2 heq
      rw [List.mem_singleton] at hop
      subst hop
      cases heq
      decide)

/-- Claim C6: across every sequence of operations on an open handle the
write cursor never decreases and never exceeds the region's total size
(which itself never changes), and a put that would push it past the total
size fails returning `-1` with the state fully unchanged. -/
theorem C6_cursor_monotone_bounded (db : KVM) (ops : List Op)
    (hle : db.write_pos ≤ db.mem_size) :
    db.write_pos ≤ (runOps db ops).write_pos ∧
    (runOps db ops).write_pos ≤ (runOps db ops).mem_size ∧
    (runOps db ops).mem_size = db.mem_size ∧
    ∀ k v, (runOps db ops).mem_size <
        (runOps db ops).write_pos + entry_size (klen32 k) (klen32 v) →
      kvm_put (runOps db ops) k v = (-1, runOps db ops) :=
  ⟨runOps_wp_mono ops db, runOps_wp_le ops db hle, runOps_mem_size ops db,
   fun _ _ h => kvm_put_of_gt h⟩

theorem C6_cursor_monotone_bounded_witness :
    initKVM.write_pos ≤ initKVM.mem_size ∧
    initKVM.write_pos ≤ (runOps initKVM [Op.put [97] [49]]).write_pos ∧
    (runOps initKVM [Op.put [97] [49]]).write_pos ≤
      (runOps initKVM [Op.put [97] [49]]).mem_size :=
  ⟨by decide,
   (C6_cursor_monotone_bounded initKVM [Op.put [97] [49]] (by decide)).1,
   (C6_cursor_monotone_bounded initKVM [Op.put [97] [49]] (by decide)).2.1⟩

lemma find?_map_entryKV (entries : List (Nat × Entry)) (kb : Bytes) :
    (entries.find? (fun pe => keyOf pe.2 == kb)).map (fun pe => valOf pe.2) =
    ((entries.map entryKV).find? (fun pr => pr.1 == kb)).map Prod.snd := by
  induction entries with
  | nil => rfl
  | cons pe t ih =>
    by_cases h : (keyOf pe.2 == kb) = true
    · rw [@List.find?_cons_of_pos _ (fun pe => keyOf pe.2 == kb) pe t h,
        List.map_cons,
        @List.find?_cons_of_pos _ (fun pr => pr.1 == kb) (entryKV pe) _
          (by simpa [entryKV] using h)]
      rfl
    · rw [@List.find?_cons_of_neg _ (fun pe => keyOf pe.2 == kb) pe t h,
        List.map_cons,
        @List.find?_cons_of_neg _ (fun pr => pr.1 == kb) (entryKV pe) _
          (by simpa [entryKV] using h), ih]

/-- Claim C3: duplicate keys are permitted, and get returns the value of
the most recent successful put of that key: for any sequence of puts on a
fresh handle in which every put succeeded, `get(h,k)` returns the value
of the last put whose key equals `k` (as C strings), and absent if there
is none.  The witness instantiates the duplicate-key instance put "a" "1";
put "a" "2"; get "a" = "2". -/
theorem C3_last_put_wins (ops : List (Bytes × Bytes)) (k : Bytes)
    (hops : ∀ p ∈ ops, ValidBytes p.1 ∧ ValidBytes p.2)
    (hk : ValidBytes k)
    (hall : (runPutsOk initKVM ops).1 = true) :
    (kvm_get (runPutsOk initKVM ops).2 k).1 =
      ((ops.filter (fun p => cstr p.1 == cstr k)).getLast?).map
        (fun p => cstr p.2) := by
  obtain ⟨hI, hE⟩ := runPutsOk_spec ops initKVM initKVM_inv hall
  rw [kvm_get_spec k hI]
  have hE2 : (runPutsOk initKVM ops).2.entries.map entryKV =
      (ops.map (fun p => (kbytes p.1, kbytes p.2))).reverse := by
    rw [hE]
    simp [initKVM]
  have hmap : ops.map (fun p => (kbytes p.1, kbytes p.2)) =
      ops.map (fun p => (cstr p.1, cstr p.2)) :=
    List.map_congr_left (fun p hp => by
      rw [kbytes_eq_cstr p.1 (hops p hp).1.2, kbytes_eq_cstr p.2 (hops p hp).2.2])
  rw [find?_map_entryKV, hE2, hmap, kbytes_eq_cstr k hk.2, find?_reverse,
    List.filter_map, List.getLast?_map, Option.map_map]
  rfl

theorem C3_last_put_wins_witness :
    (runPutsOk initKVM [([97], [49]), ([97], [50])]).1 = true ∧
    (kvm_get (runPutsOk initKVM [([97], [49]), ([97], [50])]).2 [97]).1 =
      (([([97], [49]), ([97], [50])].filter
          (fun p => cstr p.1 == cstr [97])).getLast?).map (fun p => cstr p.2) ∧
    (kvm_get (runPutsOk initKVM [([97], [49]), ([97], [50])]).2 [97]).1 =
      some [50] :=
  ⟨by decide,
   C3_last_put_wins [([97], [49]), ([97], [50])] [97] (by decide) (by decide)
     (by decide),
   by decide⟩

end KVS
